import Mathlib

/-!
Verification of the mutexbench lock library against its specification.

The definitions below are shallow embeddings of the C++ sources:
machine integers (`std::uint64_t`, `std::uint32_t`, `std::uintptr_t`)
become `Nat` with explicit `% 2^64` / `% 2^32` where the source relies
on wraparound; pointers become `Nat` identifiers; atomic read-modify-
write sequences executed by a single thread at a time become explicit
state-passing functions; interleaved executions become label-indexed
step functions over explicit state records.
-/

set_option maxRecDepth 4096

namespace MutexBench

/-! ## Lock-kind parsing and dispatch

Embedding of `src/bench/locks_bench/lock_kind.hpp` and
`src/bench/locks_bench/lock_dispatch.hpp`.
-/

/-- The `LockKind` enum from `lock_kind.hpp`.  Note the enum has no `clh`
enumerator in the source. -/
inductive LockKind
| kMutex
| kReciprocating
| kHapax
| kMcs
| kTwa
deriving DecidableEq, Repr

/-- Embedding of `TryParseLockKind` (lock_kind.hpp lines 31-53): the C++
function returns `true` and writes the out-parameter on a recognized
string; we return `some kind` in that case and `none` where it returns
`false`. -/
def tryParseLockKind (value : String) : Option LockKind :=
  if value = "mutex" then some LockKind.kMutex
  else if value = "reciprocating" then some LockKind.kReciprocating
  else if value = "hapax" then some LockKind.kHapax
  else if value = "mcs" then some LockKind.kMcs
  else if value = "twa" then some LockKind.kTwa
  else none

/-- The benchmark wrapper types that `DispatchByLockKind` can instantiate
(`lock_dispatch.hpp` includes exactly these four bench headers). -/
inductive LockBenchType
| StdMutexLockBench
| ReciprocatingLockBench
| HapaxLockBench
| McsLockBench
deriving DecidableEq, Repr

/-- Embedding of `DispatchByLockKind` (lock_dispatch.hpp lines 14-26).
The switch has cases for `kMutex`, `kReciprocating`, `kHapax` and `kMcs`
only; every other kind falls through to `std::abort()`, modelled as
`none`. -/
def dispatchByLockKind : LockKind → Option LockBenchType
  | LockKind.kMutex => some LockBenchType.StdMutexLockBench
  | LockKind.kReciprocating => some LockBenchType.ReciprocatingLockBench
  | LockKind.kHapax => some LockBenchType.HapaxLockBench
  | LockKind.kMcs => some LockBenchType.McsLockBench
  | LockKind.kTwa => none

end MutexBench

namespace MutexBench

/-! ## TWA lock

Embedding of `src/locks/twa.hpp`.  All counters are 64-bit
(`next_ticket`, `grant`, tickets) or 32-bit (per-slot `sequence`);
arithmetic is taken modulo the corresponding power of two exactly where
the C++ unsigned types wrap.
-/

/-- Modulus of a 64-bit unsigned integer. -/
def U64 : Nat := 2 ^ 64

/-- Modulus of a 32-bit unsigned integer. -/
def U32 : Nat := 2 ^ 32

namespace Twa

/-- `TwaLock::kWaitingArraySize`. -/
def kWaitingArraySize : Nat := 4096

/-- `TwaLock::kLongTermThreshold`. -/
def kLongTermThreshold : Nat := 1

/-- Embedding of `TwaLock::HashTicket` (twa.hpp lines 31-38): the
MurmurHash3 64-bit finalizer followed by masking with
`kWaitingArraySize - 1`, which for the power-of-two size 4096 is
`% 4096`.  Inputs are 64-bit values; the xor of two values below `2^64`
stays below `2^64`, and each multiplication wraps modulo `2^64`. -/
def hashTicket (ticket : Nat) : Nat :=
  let x1 := ticket ^^^ (ticket >>> 33)
  let x2 := x1 * 0xff51afd7ed558ccd % U64
  let x3 := x2 ^^^ (x2 >>> 33)
  let x4 := x3 * 0xc4ceb9fe1a85ec53 % U64
  let x5 := x4 ^^^ (x4 >>> 33)
  x5 % kWaitingArraySize

/-- Persistent state of a `TwaLock`: `next_ticket`, `grant`, and the
4096 `WaitSlot.sequence` counters (twa.hpp lines 19-25). -/
structure TwaState where
  next_ticket : Nat
  grant : Nat
  sequence : Nat → Nat

/-- A freshly constructed `TwaLock`: both counters and every slot are
zero. -/
def initTwa : TwaState :=
  { next_ticket := 0, grant := 0, sequence := fun _ => 0 }

/-- Embedding of `TwaLock::unlock` (twa.hpp lines 81-89): store
`grant := ticket + 1`, then fetch-add 1 into the sequence counter of
slot `HashTicket(next_ticket_to_grant + kLongTermThreshold)`. -/
def twaUnlock (s : TwaState) (ticket : Nat) : TwaState :=
  let next_ticket_to_grant := (ticket + 1) % U64
  let wakeup_ticket := (next_ticket_to_grant + kLongTermThreshold) % U64
  let slot_index := hashTicket wakeup_ticket
  { next_ticket := s.next_ticket
    grant := next_ticket_to_grant
    sequence := fun i =>
      if i = slot_index then (s.sequence i + 1) % U32 else s.sequence i }

/-- The ticket fetch-add performed at the top of `TwaLock::lock`
(twa.hpp lines 49-50): returns the ticket taken and the updated
persistent state. -/
def twaAcquireTicket (s : TwaState) : Nat × TwaState :=
  (s.next_ticket,
   { s with next_ticket := (s.next_ticket + 1) % U64 })

/-- Labels for the observable steps of a `TwaLock` execution: the ticket
fetch-add in `lock`, the admission of a waiting ticket into the
critical section (when `grant` reaches it), and `unlock`. -/
inductive TwaLabel
| acq
| enter (t : Nat)
| rel
deriving DecidableEq, Repr

/-- An interleaved execution state of one `TwaLock`: the persistent
fields plus the tickets that have been issued but not yet admitted, and
the ticket of the current holder (if any). -/
structure TwaMState where
  persist : TwaState
  pending : List Nat
  holder : Option Nat

/-- One interleaving step.  `acq` performs the `fetch_add` of
`TwaLock::lock`; `enter t` finishes a pending `lock` call for ticket
`t`, which the spin loops of twa.hpp lines 58-75 allow exactly when
`grant == t`; `rel` runs `TwaLock::unlock {t}` for the current holder's
handle, enforcing the handle discipline. -/
def twaStep (s : TwaMState) : TwaLabel → Option TwaMState
  | TwaLabel.acq =>
      let r := twaAcquireTicket s.persist
      some { persist := r.2, pending := s.pending ++ [r.1], holder := s.holder }
  | TwaLabel.enter t =>
      if t ∈ s.pending ∧ s.holder = none ∧ s.persist.grant = t then
        some { persist := s.persist, pending := s.pending.erase t,
               holder := some t }
      else none
  | TwaLabel.rel =>
      match s.holder with
      | some t => some { persist := twaUnlock s.persist t,
                         pending := s.pending, holder := none }
      | none => none

/-- Run a list of step labels from a state, failing if any step's
precondition fails. -/
def twaRun (s : TwaMState) : List TwaLabel → Option TwaMState
  | [] => some s
  | l :: ls => (twaStep s l).bind (fun s' => twaRun s' ls)

/-- Initial interleaved state: `next_ticket = 0`, `grant = 0`, all
sequence counters 0, no pending tickets, no holder. -/
def initTwaM : TwaMState :=
  { persist := initTwa, pending := [], holder := none }

/-- Inductive invariant of the TWA machine, relative to the number `a`
of `acq` steps performed so far (while `a` stays below `2^64` the
ticket counter does not wrap). -/
structure TwaInv (a : Nat) (s : TwaMState) : Prop where
  nt_eq : s.persist.next_ticket = a
  pending_lt : ∀ t ∈ s.pending, t < s.persist.next_ticket
  holder_lt : ∀ t, s.holder = some t → t < s.persist.next_ticket
  holder_grant : ∀ t, s.holder = some t → s.persist.grant = t
  grant_le : s.persist.grant ≤ s.persist.next_ticket

/-- Number of `acq` labels contributed by one label. -/
def acqWeight (l : TwaLabel) : Nat :=
  if l = TwaLabel.acq then 1 else 0

theorem twaStep_inv {a : Nat} {s s' : TwaMState} {l : TwaLabel}
    (hinv : TwaInv a s) (ha : a + acqWeight l < U64)
    (hstep : twaStep s l = some s') :
    TwaInv (a + acqWeight l) s' := by
  cases l with
  | acq =>
      simp only [twaStep, twaAcquireTicket, Option.some.injEq] at hstep
      subst hstep
      have hw : acqWeight TwaLabel.acq = 1 := rfl
      rw [hw] at ha ⊢
      have hmod : (s.persist.next_ticket + 1) % U64 = a + 1 := by
        rw [hinv.nt_eq, Nat.mod_eq_of_lt ha]
      refine ⟨hmod, ?_, ?_, ?_, ?_⟩
      · intro t ht
        simp only [List.mem_append, List.mem_singleton] at ht
        rw [hmod]
        rcases ht with h | h
        · exact lt_trans (hinv.nt_eq ▸ hinv.pending_lt t h) (Nat.lt_succ_self a)
        · rw [h, hinv.nt_eq]; exact Nat.lt_succ_self a
      · intro t ht
        rw [hmod]
        exact lt_trans (hinv.nt_eq ▸ hinv.holder_lt t ht) (Nat.lt_succ_self a)
      · intro t ht
        exact hinv.holder_grant t ht
      · rw [hmod]
        exact le_trans (hinv.nt_eq ▸ hinv.grant_le) (Nat.le_succ a)
  | enter t =>
      simp only [twaStep] at hstep
      by_cases hc : t ∈ s.pending ∧ s.holder = none ∧ s.persist.grant = t
      · rw [if_pos hc] at hstep
        cases hstep
        have hw : acqWeight (TwaLabel.enter t) = 0 := rfl
        rw [hw, Nat.add_zero] at ha ⊢
        refine ⟨by simpa using hinv.nt_eq, ?_, ?_, ?_, by simpa using hinv.grant_le⟩
        · intro u hu
          exact hinv.pending_lt u (List.mem_of_mem_erase hu)
        · intro u hu
          simp only [Option.some.injEq] at hu
          subst hu
          exact hinv.pending_lt t hc.1
        · intro u hu
          simp only [Option.some.injEq] at hu
          subst hu
          exact hc.2.2
      · rw [if_neg hc] at hstep
        exact absurd hstep (by simp)
  | rel =>
      simp only [twaStep] at hstep
      cases hh : s.holder with
      | none => rw [hh] at hstep; exact absurd hstep (by simp)
      | some t =>
          rw [hh] at hstep
          cases hstep
          have hw : acqWeight TwaLabel.rel = 0 := rfl
          rw [hw, Nat.add_zero] at ha ⊢
          have htlt : t < a := hinv.nt_eq ▸ hinv.holder_lt t hh
          have hgr : (t + 1) % U64 = t + 1 := Nat.mod_eq_of_lt (by omega)
          refine ⟨by simpa [twaUnlock] using hinv.nt_eq, ?_, ?_, ?_, ?_⟩
          · intro u hu
            simpa [twaUnlock] using hinv.pending_lt u hu
          · intro u hu
            simp at hu
          · intro u hu
            simp at hu
          · show (t + 1) % U64 ≤ _
            simp only [twaUnlock]
            rw [hgr, hinv.nt_eq]
            omega

/-- Invariant holds along every run whose total `acq` count stays below
`2^64`. -/
theorem twaRun_inv {labels : List TwaLabel} {a : Nat} {s s' : TwaMState}
    (hinv : TwaInv a s)
    (ha : a + (labels.map acqWeight).sum < U64)
    (hrun : twaRun s labels = some s') :
    TwaInv (a + (labels.map acqWeight).sum) s' := by
  induction labels generalizing a s with
  | nil =>
      simp only [twaRun, Option.some.injEq] at hrun
      subst hrun
      simpa using hinv
  | cons l ls ih =>
      simp only [twaRun, Option.bind_eq_bind] at hrun
      rcases Option.bind_eq_some.mp hrun with ⟨s1, hstep, hrest⟩
      have h1 : TwaInv (a + acqWeight l) s1 :=
        twaStep_inv hinv (by simp at ha; omega) hstep
      have h2 := ih h1 (by simp at ha ⊢; omega) hrest
      simpa [add_assoc] using h2

theorem twaRun_append (s : TwaMState) (xs ys : List TwaLabel) :
    twaRun s (xs ++ ys) = (twaRun s xs).bind (fun s' => twaRun s' ys) := by
  induction xs generalizing s with
  | nil => simp [twaRun]
  | cons l ls ih =>
      simp only [List.cons_append, twaRun, Option.bind_eq_bind]
      cases twaStep s l with
      | none => simp
      | some s1 => simp [ih s1]

theorem twaRun_replicate_acq (k : Nat) (s : TwaMState)
    (hnt : s.persist.next_ticket < U64) :
    ∃ s', twaRun s (List.replicate k TwaLabel.acq) = some s' ∧
      s'.persist.grant = s.persist.grant ∧
      s'.persist.next_ticket = (s.persist.next_ticket + k) % U64 := by
  induction k generalizing s with
  | zero =>
      exact ⟨s, rfl, rfl, by simpa using (Nat.mod_eq_of_lt hnt).symm⟩
  | succ n ih =>
      have hstep : twaStep s TwaLabel.acq =
          some { persist := { s.persist with
                   next_ticket := (s.persist.next_ticket + 1) % U64 },
                 pending := s.pending ++ [s.persist.next_ticket],
                 holder := s.holder } := rfl
      obtain ⟨s', hrun, hg, hn⟩ := ih
        { persist := { s.persist with
            next_ticket := (s.persist.next_ticket + 1) % U64 },
          pending := s.pending ++ [s.persist.next_ticket],
          holder := s.holder }
        (Nat.mod_lt _ (by norm_num [U64]))
      refine ⟨s', ?_, hg, ?_⟩
      · rw [List.replicate_succ]
        simp only [twaRun, Option.bind_eq_bind, hstep, Option.some_bind]
        exact hrun
      · have hn' : s'.persist.next_ticket
            = ((s.persist.next_ticket + 1) % U64 + n) % U64 := hn
        rw [hn', Nat.mod_add_mod]
        congr 1
        omega

end Twa

/-- C9: `TwaLock::unlock {t}` stores `grant := t + 1` (as a 64-bit
value), increments by 1 (as a 32-bit value) the sequence counter of
exactly one waiting-array slot, namely slot
`HashTicket(t + 1 + threshold) mod 4096` with `threshold = 1`, leaves
every other slot unchanged, and leaves `next_ticket` unchanged. -/
theorem C9_twa_unlock_grant_and_single_slot (s : Twa.TwaState) (t : Nat) :
    (Twa.twaUnlock s t).grant = (t + 1) % U64 ∧
    (Twa.twaUnlock s t).next_ticket = s.next_ticket ∧
    (Twa.twaUnlock s t).sequence (Twa.hashTicket ((t + 1 + Twa.kLongTermThreshold) % U64))
      = (s.sequence (Twa.hashTicket ((t + 1 + Twa.kLongTermThreshold) % U64)) + 1) % U32 ∧
    ∀ i, i ≠ Twa.hashTicket ((t + 1 + Twa.kLongTermThreshold) % U64) →
      (Twa.twaUnlock s t).sequence i = s.sequence i := by
  have harg : ((t + 1) % U64 + Twa.kLongTermThreshold) % U64
      = (t + 1 + Twa.kLongTermThreshold) % U64 := by
    simp [Nat.mod_add_mod]
  refine ⟨rfl, rfl, ?_, ?_⟩
  · simp [Twa.twaUnlock, harg]
  · intro i hi
    simp [Twa.twaUnlock, harg, if_neg hi]

/-- Witness for C9 at a concrete state and ticket. -/
theorem C9_twa_unlock_witness :
    (Twa.twaUnlock Twa.initTwa 0).grant = 1 ∧
    (Twa.twaUnlock Twa.initTwa 0).sequence (Twa.hashTicket 2) = 1 := by
  obtain ⟨h1, _, h3, _⟩ := C9_twa_unlock_grant_and_single_slot Twa.initTwa 0
  constructor
  · rw [h1]; norm_num [U64]
  · have harg : ((0 : Nat) + 1 + Twa.kLongTermThreshold) % U64 = 2 := by
      norm_num [Twa.kLongTermThreshold, U64]
    rw [harg] at h3
    rw [h3]
    norm_num [Twa.initTwa, U32]

/-- C4 (amended): in every state reachable from the initial TWA state
by an interleaving of lock and unlock steps obeying the handle
discipline, provided the interleaving performs fewer than `2^64` ticket
fetch-adds (so the 64-bit ticket counter does not wrap), `grant` never
exceeds `next_ticket`, and `grant` is non-decreasing across every
further step. -/
theorem C4_twa_grant_monotone_amended
    (labels : List Twa.TwaLabel) (s : Twa.TwaMState)
    (hrun : Twa.twaRun Twa.initTwaM labels = some s)
    (hcount : (labels.map Twa.acqWeight).sum < U64) :
    s.persist.grant ≤ s.persist.next_ticket ∧
    ∀ (l : Twa.TwaLabel) (s' : Twa.TwaMState),
      Twa.twaStep s l = some s' →
      s.persist.grant ≤ s'.persist.grant := by
  have hinv0 : Twa.TwaInv 0 Twa.initTwaM := by
    refine ⟨rfl, ?_, ?_, ?_, le_refl 0⟩ <;> simp [Twa.initTwaM, Twa.initTwa]
  have hinv := Twa.twaRun_inv hinv0 (by simpa using hcount) hrun
  rw [Nat.zero_add] at hinv
  refine ⟨hinv.grant_le.trans (le_of_eq rfl), ?_⟩
  intro l s' hstep
  cases l with
  | acq =>
      simp only [Twa.twaStep, Twa.twaAcquireTicket, Option.some.injEq] at hstep
      subst hstep
      exact le_refl _
  | enter t =>
      simp only [Twa.twaStep] at hstep
      by_cases hc : t ∈ s.pending ∧ s.holder = none ∧ s.persist.grant = t
      · rw [if_pos hc] at hstep
        cases hstep
        exact le_refl _
      · rw [if_neg hc] at hstep
        exact absurd hstep (by simp)
  | rel =>
      simp only [Twa.twaStep] at hstep
      cases hh : s.holder with
      | none => rw [hh] at hstep; exact absurd hstep (by simp)
      | some t =>
          rw [hh] at hstep
          cases hstep
          have hg : s.persist.grant = t := hinv.holder_grant t hh
          have htlt : t < (labels.map Twa.acqWeight).sum :=
            hinv.nt_eq ▸ hinv.holder_lt t hh
          show s.persist.grant ≤ (t + 1) % U64

          rw [hg, Nat.mod_eq_of_lt (by omega)]
          omega

/-- Witness for C4's amended theorem at a concrete three-step run. -/
theorem C4_twa_grant_monotone_witness :
    ∃ s, Twa.twaRun Twa.initTwaM
        [Twa.TwaLabel.acq, Twa.TwaLabel.enter 0, Twa.TwaLabel.rel] = some s ∧
      s.persist.grant ≤ s.persist.next_ticket := by
  obtain ⟨s, hs⟩ : ∃ s, Twa.twaRun Twa.initTwaM
      [Twa.TwaLabel.acq, Twa.TwaLabel.enter 0, Twa.TwaLabel.rel] = some s :=
    ⟨_, rfl⟩
  exact ⟨s, hs,
    (C4_twa_grant_monotone_amended _ s hs (by decide)).1⟩

/-- C4 (counterexample to the claim as stated): after one full
acquire/release cycle followed by `2^64 - 1` further ticket fetch-adds,
the 64-bit `next_ticket` counter wraps to 0 while `grant` is 1, so the
reachable state violates the unconditional "grant never exceeds
next_ticket". -/
theorem C4_twa_grant_counterexample :
    ∃ s, Twa.twaRun Twa.initTwaM
        (Twa.TwaLabel.acq :: Twa.TwaLabel.enter 0 :: Twa.TwaLabel.rel ::
          List.replicate (U64 - 1) Twa.TwaLabel.acq) = some s ∧
      s.persist.next_ticket < s.persist.grant := by
  have hpre : Twa.twaRun Twa.initTwaM
      [Twa.TwaLabel.acq, Twa.TwaLabel.enter 0, Twa.TwaLabel.rel]
      = some { persist := Twa.twaUnlock
                 { next_ticket := 1 % U64, grant := 0, sequence := fun _ => 0 } 0,
               pending := [], holder := none } := rfl
  have hsplit : (Twa.TwaLabel.acq :: Twa.TwaLabel.enter 0 :: Twa.TwaLabel.rel ::
      List.replicate (U64 - 1) Twa.TwaLabel.acq)
      = [Twa.TwaLabel.acq, Twa.TwaLabel.enter 0, Twa.TwaLabel.rel] ++
        List.replicate (U64 - 1) Twa.TwaLabel.acq := rfl
  obtain ⟨s', hrun, hg, hn⟩ := Twa.twaRun_replicate_acq (U64 - 1)
    { persist := Twa.twaUnlock
        { next_ticket := 1 % U64, grant := 0, sequence := fun _ => 0 } 0,
      pending := [], holder := none }
    (by simp [Twa.twaUnlock]; exact Nat.mod_lt _ (by norm_num [U64]))
  refine ⟨s', ?_, ?_⟩
  · rw [hsplit, Twa.twaRun_append, hpre, Option.some_bind]
    exact hrun
  · have hg1 : s'.persist.grant = 1 := by
      rw [hg]
      show (0 + 1) % U64 = 1
      norm_num [U64]
    have hn0 : s'.persist.next_ticket = 0 := by
      rw [hn]
      show (1 % U64 + (U64 - 1)) % U64 = 0
      have h1 : (1 : Nat) % U64 = 1 := by norm_num [U64]
      rw [h1]
      have : 1 + (U64 - 1) = U64 := by
        have : 1 ≤ U64 := by norm_num [U64]
        omega
      rw [this, Nat.mod_self]
    rw [hg1, hn0]
    norm_num

end MutexBench

namespace MutexBench

/-! ## MCS lock

Embedding of `src/locks/mcs.hpp`.  Node pointers become `Nat`
identifiers.  `McsLock::lock` declares `static thread_local Node
my_node` at function scope: C++ gives such an object one instance per
thread for the whole program, independent of the `McsLock` object
(`this`) the call is made on.
-/

namespace Mcs

/-- Contents of a `McsLock::Node` (mcs.hpp lines 9-12). -/
structure Node where
  next : Option Nat
  locked : Bool
deriving DecidableEq, Repr

/-- Identifier of the cell used by thread `tid` when acquiring lock
instance `inst`: the `static thread_local Node my_node` of
`McsLock::lock` (mcs.hpp line 21) is allocated per thread, so the
identity does not depend on the lock instance. -/
def cellOf (tid : Nat) (_inst : Nat) : Nat := tid

/-- Persistent plus per-thread state of the MCS world: the lock's
`tail` and the pool of thread-local nodes. -/
structure McsState where
  tail : Option Nat
  nodes : Nat → Node

/-- Fresh MCS state: `tail` null, all nodes default-initialized. -/
def initMcs : McsState :=
  { tail := none, nodes := fun _ => { next := none, locked := false } }

/-- Embedding of `McsLock::lock` (mcs.hpp lines 20-37) for the path
that completes without spinning: re-initialize the own node
(`next := nullptr; locked := true`), exchange `tail`; if the previous
tail was null the acquisition is complete (handle = own node), else the
caller would publish itself and spin, which we model as `none`. -/
def mcsLock (tid inst : Nat) (s : McsState) : Option (Nat × McsState) :=
  let nid := cellOf tid inst
  let s1 : McsState :=
    { tail := some nid,
      nodes := fun i => if i = nid then { next := none, locked := true }
               else s.nodes i }
  match s.tail with
  | none => some (nid, s1)
  | some _ => none

/-- Embedding of `McsLock::unlock` (mcs.hpp lines 39-61) for the
wait-free paths: if the own node's `next` is null, try the CAS
`tail: node -> null`; on CAS success done, on failure the code spins
for the successor (modelled as `none`); if `next` is non-null, clear
the successor's `locked` flag. -/
def mcsUnlock (nid : Nat) (s : McsState) : Option McsState :=
  match (s.nodes nid).next with
  | none =>
      if s.tail = some nid then
        some { tail := none, nodes := s.nodes }
      else none
  | some succ =>
      some { tail := s.tail,
             nodes := fun i => if i = succ then { s.nodes succ with locked := false }
                      else s.nodes i }

end Mcs

/-! ## Reciprocating lock

Embedding of `src/locks/reciprocating.hpp`.  `WaitElement*` values
become `Nat`: 0 is `nullptr`, 1 is `LOCKEDEMPTY` (bit pattern 1), and
the 128-byte-aligned per-thread `WaitElement E` of thread `tid` lives
at address `128 * (tid + 1)`.
-/

namespace Recip

/-- The `LOCKEDEMPTY` sentinel (reciprocating.hpp lines 14-15). -/
def LOCKEDEMPTY : Nat := 1

/-- Address of the `static thread_local WaitElement E` of
`ReciprocatingLock::lock` (reciprocating.hpp line 31); per-thread,
independent of the lock instance, 128-byte aligned hence nonzero and
even. -/
def elemAddr (tid : Nat) : Nat := 128 * (tid + 1)

/-- Identifier of the wait element used by thread `tid` on lock
instance `inst`; the thread-local storage ignores the instance. -/
def cellOf (tid : Nat) (_inst : Nat) : Nat := elemAddr tid

/-- Clearing the low tag bit of a pointer word
(`reinterpret_cast<uintptr_t>(tail) & ~uintptr_t(1)`,
reciprocating.hpp lines 42-44). -/
def maskLowBit (p : Nat) : Nat := p - p % 2

/-- The handle (`ReciprocatingLock::LockState`) produced by `lock`
(reciprocating.hpp lines 23-27). -/
structure RecipHandle where
  succ : Nat
  eos : Nat
  self : Nat
deriving DecidableEq, Repr

/-- State of one `ReciprocatingLock` together with the `Gate` fields of
all wait elements. -/
structure RecipState where
  arrivals : Nat
  gate : Nat → Nat

/-- Fresh reciprocating lock: `Arrivals = nullptr`, all gates null. -/
def initRecip : RecipState :=
  { arrivals := 0, gate := fun _ => 0 }

/-- Embedding of `ReciprocatingLock::lock` (reciprocating.hpp lines
29-67) for the uncontended path: reset `E.Gate := nullptr`, set the
fast-path handle `{succ := null, eos := &E, self := &E}`, exchange
`Arrivals` with `&E`; if the previous value was null the acquisition is
complete, otherwise the caller would spin on its gate (modelled as
`none`; the contended handle computation is `recipLockContended`). -/
def recipLock (tid : Nat) (s : RecipState) : Option (RecipHandle × RecipState) :=
  let e := elemAddr tid
  let s1 : RecipState :=
    { arrivals := e, gate := fun i => if i = e then 0 else s.gate i }
  if s.arrivals = 0 then
    some ({ succ := 0, eos := e, self := e }, s1)
  else none

/-- Embedding of the contended tail of `ReciprocatingLock::lock`
(reciprocating.hpp lines 40-62), as a function of the non-null value
`prior` returned by the `Arrivals` exchange and of the first non-null
value `g` the spin loop observes in `E.Gate`: mask the low tag bit of
`prior` into `succ`, take `eos := g`, and if `succ == eos` mark the
logical end of segment by `succ := nullptr`, `eos := LOCKEDEMPTY`. -/
def recipLockContended (tid : Nat) (prior g : Nat) : RecipHandle :=
  let succ := maskLowBit prior
  if succ = g then
    { succ := 0, eos := LOCKEDEMPTY, self := elemAddr tid }
  else
    { succ := succ, eos := g, self := elemAddr tid }

/-- Embedding of `ReciprocatingLock::unlock` (reciprocating.hpp lines
69-97): if the handle carries a successor, write its gate; otherwise
try the CAS `Arrivals: eos -> nullptr`; on failure, exchange
`Arrivals` with `LOCKEDEMPTY` and write the gate of the element that
had arrived.  All paths are wait-free. -/
def recipUnlock (h : RecipHandle) (s : RecipState) : RecipState :=
  if h.succ ≠ 0 then
    { arrivals := s.arrivals,
      gate := fun i => if i = h.succ then h.eos else s.gate i }
  else if s.arrivals = h.eos then
    { arrivals := 0, gate := s.gate }
  else
    let w := s.arrivals
    { arrivals := LOCKEDEMPTY,
      gate := fun i => if i = w then h.eos else s.gate i }

/-- A valid non-null `Arrivals` word: either the `LOCKEDEMPTY` sentinel
or the address of some thread's 128-byte-aligned wait element. -/
def ValidPrior (p : Nat) : Prop :=
  p = LOCKEDEMPTY ∨ ∃ tid, p = elemAddr tid

end Recip

/-- C7: in the contended path of `ReciprocatingLock::lock`, the handle
satisfies: `succ` is `prior` with the low tag bit masked off, and is
null exactly when `prior == LOCKEDEMPTY`; `eos` is the first non-null
value observed in the own gate; and when `succ == eos` the handle is
adjusted to `succ := null`, `eos := LOCKEDEMPTY`. -/
theorem C7_recip_contended_handle (tid prior g : Nat)
    (hprior : Recip.ValidPrior prior) (_hg : g ≠ 0) :
    (Recip.maskLowBit prior = 0 ↔ prior = Recip.LOCKEDEMPTY) ∧
    (Recip.maskLowBit prior ≠ g →
      Recip.recipLockContended tid prior g
        = { succ := Recip.maskLowBit prior, eos := g, self := Recip.elemAddr tid }) ∧
    (Recip.maskLowBit prior = g →
      Recip.recipLockContended tid prior g
        = { succ := 0, eos := Recip.LOCKEDEMPTY, self := Recip.elemAddr tid }) := by
  refine ⟨?_, ?_, ?_⟩
  · constructor
    · intro h0
      rcases hprior with h | ⟨t, ht⟩
      · exact h
      · exfalso
        subst ht
        simp only [Recip.maskLowBit, Recip.elemAddr] at h0
        omega
    · intro h1
      subst h1
      rfl
  · intro hne
    simp only [Recip.recipLockContended, if_neg hne]
  · intro heq
    simp only [Recip.recipLockContended, if_pos heq]

/-- Witness for C7: concrete contended acquisition where the exchange
returned `LOCKEDEMPTY` and the gate produced element address 256. -/
theorem C7_recip_contended_handle_witness :
    Recip.ValidPrior Recip.LOCKEDEMPTY ∧ (256 : Nat) ≠ 0 ∧
    Recip.recipLockContended 0 Recip.LOCKEDEMPTY 256
      = { succ := 0, eos := 256, self := Recip.elemAddr 0 } := by
  refine ⟨Or.inl rfl, by norm_num, ?_⟩
  have h := C7_recip_contended_handle 0 Recip.LOCKEDEMPTY 256
    (Or.inl rfl) (by norm_num)
  have hmask : Recip.maskLowBit Recip.LOCKEDEMPTY = 0 := rfl
  have := h.2.1 (by rw [hmask]; norm_num)
  rw [this, hmask]

end MutexBench

namespace MutexBench

/-! ## CLH lock

Embedding of `src/locks/clh.hpp` as an interleaved state machine over
`K` participating threads.  Cells are `Nat` identifiers: the per-lock
sentinel is cell `0` and thread `t`'s lazily allocated initial cell is
`t + 1` (`ClhLock::ThreadNodeRef`, clh.hpp lines 58-65; the pointer is
`static thread_local`, one slot per thread).  A thread is `idle`
outside `lock`/`unlock`, `waiting pred` after the `tail` exchange of
`lock` (clh.hpp line 31), and `holding pred` once the spin on
`pred->locked` (line 33) has observed `false`.
-/

namespace Clh

/-- Identifier of the `static thread_local` cell-pointer slot of
`ClhLock::ThreadNodeRef` used by thread `tid` on lock instance `inst`:
the slot is per thread, independent of the instance. -/
def slotOf (tid : Nat) (_inst : Nat) : Nat := tid

/-- Phase of one thread with respect to the lock. -/
inductive TStatus
| idle
| waiting (pred : Nat)
| holding (pred : Nat)
deriving DecidableEq, Repr

/-- The predecessor cell recorded in the handle of a thread currently
inside an acquire episode. -/
def predOf : TStatus → Option Nat
  | TStatus.idle => none
  | TStatus.waiting p => some p
  | TStatus.holding p => some p

/-- Interleaved CLH state: the lock's `tail_`, the `locked` flag of
every cell, each thread's current cell pointer, and each thread's
phase. -/
structure ClhState where
  tail : Nat
  locked : Nat → Bool
  tcell : Nat → Nat
  st : Nat → TStatus

/-- Freshly constructed lock with `K` participating threads: `tail_`
points to the sentinel (cell 0, unlocked), thread `t` owns cell
`t + 1` (allocated unlocked), everyone idle. -/
def initClh : ClhState :=
  { tail := 0, locked := fun _ => false,
    tcell := fun t => t + 1, st := fun _ => TStatus.idle }

/-- Step labels of the CLH machine. -/
inductive ClhLabel
| doLock (t : Nat)
| doEnter (t : Nat)
| doUnlock (t : Nat)
deriving DecidableEq, Repr

/-- One interleaving step for `K` participating threads.

`doLock t` performs the body of `ClhLock::lock` up to and including the
`tail_` exchange (clh.hpp lines 27-31): set the own cell's `locked`
flag, exchange `tail_`, record the predecessor.  `doEnter t` finishes
`lock`: the spin of line 33 completes exactly when the predecessor's
`locked` flag is false.  `doUnlock t` is `ClhLock::unlock` (lines
40-47): clear the own cell's flag and adopt the predecessor's cell. -/
def clhStep (K : Nat) (s : ClhState) : ClhLabel → Option ClhState
  | ClhLabel.doLock t =>
      if t < K ∧ s.st t = TStatus.idle then
        some { tail := s.tcell t,
               locked := fun c => if c = s.tcell t then true else s.locked c,
               tcell := s.tcell,
               st := fun u => if u = t then TStatus.waiting s.tail else s.st u }
      else none
  | ClhLabel.doEnter t =>
      match s.st t with
      | TStatus.waiting p =>
          if s.locked p = false then
            some { s with
                   st := fun u => if u = t then TStatus.holding p else s.st u }
          else none
      | _ => none
  | ClhLabel.doUnlock t =>
      match s.st t with
      | TStatus.holding p =>
          some { tail := s.tail,
                 locked := fun c => if c = s.tcell t then false else s.locked c,
                 tcell := fun u => if u = t then p else s.tcell u,
                 st := fun u => if u = t then TStatus.idle else s.st u }
      | _ => none

/-- Run a list of CLH step labels. -/
def clhRun (K : Nat) (s : ClhState) : List ClhLabel → Option ClhState
  | [] => some s
  | l :: ls => (clhStep K s l).bind (fun s' => clhRun K s' ls)

/-- The collection named by the claim, with multiplicities: every
thread's current cell pointer, every outstanding handle's `pred` cell,
and the cells reachable from `tail_` (CLH cells hold no links, so that
is `tail_` itself). -/
def claimCells (K : Nat) (s : ClhState) : Multiset Nat :=
  ((List.range K).map s.tcell : Multiset Nat)
  + ((List.range K).filterMap (fun t => predOf (s.st t)) : Multiset Nat)
  + {s.tail}

/-- The same collection as a set. -/
def claimCellSet (K : Nat) (s : ClhState) : Finset Nat :=
  ((Finset.range K).image s.tcell)
  ∪ ((Finset.range K).biUnion (fun t => (predOf (s.st t)).toFinset))
  ∪ {s.tail}

/-- The initial sentinel together with each thread's initial cell. -/
def initCells (K : Nat) : Multiset Nat := (List.range (K + 1) : Multiset Nat)

end Clh

/-! C2.  The per-thread cells of MCS, CLH and Reciprocating are
`static thread_local` objects (mcs.hpp line 21, clh.hpp lines 58-65,
reciprocating.hpp line 31): C++ allocates one such object per thread
for the whole program, so the same cell is used for every lock instance
of that kind.  The claim that distinct instances use distinct cells is
therefore false; what holds is that cells are per-thread (distinct
threads never share a cell) and that the cell is re-initialized at the
start of every acquire. -/

/-- C2 (counterexample to the claim as stated): for thread 0, the MCS,
CLH and Reciprocating cells used on lock instance 0 and on the distinct
lock instance 1 are the same cell, because the thread-local storage is
keyed by the thread alone. -/
theorem C2_cell_per_instance_counterexample :
    Mcs.cellOf 0 0 = Mcs.cellOf 0 1 ∧
    Clh.slotOf 0 0 = Clh.slotOf 0 1 ∧
    Recip.cellOf 0 0 = Recip.cellOf 0 1 :=
  ⟨rfl, rfl, rfl⟩

/-- C2 (amended): for MCS, CLH and Reciprocating, the per-thread cell
is specific to the calling thread — distinct threads use distinct cells
on any pair of lock instances — but is shared across all lock instances
of the same kind; and the cell is re-initialized at the start of every
acquire, so an acquire's outcome is independent of whatever the
re-initialized fields previously held (MCS resets `next` and `locked`,
Reciprocating resets `Gate`, CLH rewrites `locked`). -/
theorem C2_thread_cell_amended :
    (∀ t u i j, t ≠ u → Mcs.cellOf t i ≠ Mcs.cellOf u j) ∧
    (∀ t u i j, t ≠ u → Clh.slotOf t i ≠ Clh.slotOf u j) ∧
    (∀ t u i j, t ≠ u → Recip.cellOf t i ≠ Recip.cellOf u j) ∧
    (∀ tid inst v s, Mcs.mcsLock tid inst
        { s with nodes := fun i => if i = Mcs.cellOf tid inst then v else s.nodes i }
      = Mcs.mcsLock tid inst s) ∧
    (∀ tid v s, Recip.recipLock tid
        { s with gate := fun i => if i = Recip.elemAddr tid then v else s.gate i }
      = Recip.recipLock tid s) ∧
    (∀ K t b s, Clh.clhStep K
        { s with locked := fun c => if c = s.tcell t then b else s.locked c }
        (Clh.ClhLabel.doLock t)
      = Clh.clhStep K s (Clh.ClhLabel.doLock t)) := by
  refine ⟨?_, ?_, ?_, ?_, ?_, ?_⟩
  · intro t u i j h
    simpa [Mcs.cellOf] using h
  · intro t u i j h
    simpa [Clh.slotOf] using h
  · intro t u i j h
    simp only [Recip.cellOf, Recip.elemAddr, ne_eq]
    omega
  · intro tid inst v s
    simp only [Mcs.mcsLock]
    cases s.tail with
    | none =>
        simp only [Option.some.injEq]
        refine Prod.ext rfl ?_
        show Mcs.McsState.mk _ _ = Mcs.McsState.mk _ _
        congr 1
        funext i
        by_cases hi : i = Mcs.cellOf tid inst <;> simp [hi]
    | some x => rfl
  · intro tid v s
    simp only [Recip.recipLock]
    by_cases ha : s.arrivals = 0
    · rw [if_pos ha, if_pos ha]
      simp only [Option.some.injEq]
      refine Prod.ext rfl ?_
      show Recip.RecipState.mk _ _ = Recip.RecipState.mk _ _
      congr 1
      funext i
      by_cases hi : i = Recip.elemAddr tid <;> simp [hi]
    · rw [if_neg ha, if_neg ha]
  · intro K t b s
    simp only [Clh.clhStep]
    by_cases hc : t < K ∧ s.st t = Clh.TStatus.idle
    · rw [if_pos hc, if_pos hc]
      simp only [Option.some.injEq]
      show Clh.ClhState.mk _ _ _ _ = Clh.ClhState.mk _ _ _ _
      congr 1
      funext c
      by_cases hci : c = s.tcell t <;> simp [hci]
    · rw [if_neg hc, if_neg hc]

/-- Witness for C2's amended theorem: thread 0 and thread 1 use
distinct cells even on distinct lock instances. -/
theorem C2_thread_cell_witness :
    Mcs.cellOf 0 0 ≠ Mcs.cellOf 1 5 ∧
    Clh.slotOf 0 2 ≠ Clh.slotOf 1 3 ∧
    Recip.cellOf 0 0 ≠ Recip.cellOf 1 1 :=
  ⟨C2_thread_cell_amended.1 0 1 0 5 (by norm_num),
   C2_thread_cell_amended.2.1 0 1 2 3 (by norm_num),
   C2_thread_cell_amended.2.2.1 0 1 0 1 (by norm_num)⟩

end MutexBench

namespace MutexBench

namespace Clh

/-! Inductive invariant for the CLH machine.  The threads currently
inside an acquire episode form a queue `q` (in arrival order); `hc` is
the current head cell — the cell the episode at the front of the queue
is (or was) spinning on, owned by no thread. -/

/-- `chain s c q e`: starting from cell `c`, the episodes in `q` link
up — each element's handle `pred` is the previous element's cell — and
the last element's cell is `e` (the lock's `tail_`). -/
def chain (s : ClhState) : Nat → List Nat → Nat → Prop
  | c, [], e => c = e
  | c, t :: rest, e => predOf (s.st t) = some c ∧ chain s (s.tcell t) rest e

theorem chain_congr {s s' : ClhState} {c e : Nat} {q : List Nat}
    (hst : ∀ u ∈ q, predOf (s'.st u) = predOf (s.st u))
    (htc : ∀ u ∈ q, s'.tcell u = s.tcell u)
    (h : chain s c q e) : chain s' c q e := by
  induction q generalizing c with
  | nil => exact h
  | cons t rest ih =>
      obtain ⟨h1, h2⟩ := h
      refine ⟨(hst t (by simp)).trans h1, ?_⟩
      rw [htc t (by simp)]
      exact ih (fun u hu => hst u (by simp [hu])) (fun u hu => htc u (by simp [hu])) h2

theorem chain_snoc {s : ClhState} {c e : Nat} {q : List Nat} {t : Nat}
    (h : chain s c q e) (hp : predOf (s.st t) = some e) :
    chain s c (q ++ [t]) (s.tcell t) := by
  induction q generalizing c with
  | nil => exact ⟨h ▸ hp, rfl⟩
  | cons u rest ih =>
      obtain ⟨h1, h2⟩ := h
      exact ⟨h1, ih h2⟩

theorem chain_pred_mem {s : ClhState} {c e : Nat} {q : List Nat} {t : Nat}
    (h : chain s c q e) (ht : t ∈ q) :
    q.head? = some t ∨ ∃ u ∈ q, predOf (s.st t) = some (s.tcell u) := by
  induction q generalizing c with
  | nil => cases ht
  | cons t1 rest ih =>
      obtain ⟨h1, h2⟩ := h
      rcases List.mem_cons.mp ht with h | h
      · subst h
        exact Or.inl rfl
      · rcases ih h2 h with hh | ⟨u, hu, hp⟩
        · right
          refine ⟨t1, by simp, ?_⟩
          cases rest with
          | nil => cases hh
          | cons t2 rest2 =>
              obtain ⟨h3, _⟩ := h2
              simp only [List.head?_cons, Option.some.injEq] at hh
              subst hh
              exact h3
        · exact Or.inr ⟨u, by simp [hu], hp⟩

theorem chain_last {s : ClhState} {c e : Nat} {q : List Nat}
    (h : chain s c q e) : e = c ∨ ∃ u ∈ q, e = s.tcell u := by
  induction q generalizing c with
  | nil => exact Or.inl h.symm
  | cons t rest ih =>
      obtain ⟨_, h2⟩ := h
      rcases ih h2 with h | ⟨u, hu, he⟩
      · exact Or.inr ⟨t, by simp, h⟩
      · exact Or.inr ⟨u, by simp [hu], he⟩

/-- The inductive invariant of the CLH machine: queue `q`, head cell
`hc`. -/
structure ClhInvQ (K : Nat) (s : ClhState) (hc : Nat) (q : List Nat) : Prop where
  nodup : q.Nodup
  mem_lt : ∀ t ∈ q, t < K
  mem_active : ∀ t ∈ q, s.st t ≠ TStatus.idle
  active_mem : ∀ t, s.st t ≠ TStatus.idle → t ∈ q
  chain_ok : chain s hc q s.tail
  cells_eq : insert hc ((Finset.range K).image s.tcell) = Finset.range (K + 1)
  hc_not_owned : hc ∉ (Finset.range K).image s.tcell
  tcell_inj : ∀ t u, t < K → u < K → t ≠ u → s.tcell t ≠ s.tcell u
  locked_q : ∀ t ∈ q, s.locked (s.tcell t) = true
  hc_unlocked : s.locked hc = false
  holding_head : ∀ t p, s.st t = TStatus.holding p → q.head? = some t

/-- The invariant as a predicate on states. -/
def ClhInv (K : Nat) (s : ClhState) : Prop := ∃ hc q, ClhInvQ K s hc q

theorem clhInv_init (K : Nat) : ClhInv K initClh := by
  refine ⟨0, [], ?_⟩
  refine ⟨List.nodup_nil, ?_, ?_, ?_, rfl, ?_, ?_, ?_, ?_, rfl, ?_⟩
  · intro t ht; cases ht
  · intro t ht; cases ht
  · intro t ht; exact absurd rfl ht
  · ext x
    simp only [Finset.mem_insert, Finset.mem_image, Finset.mem_range, initClh]
    constructor
    · rintro (rfl | ⟨t, ht, rfl⟩) <;> omega
    · intro hx
      rcases Nat.eq_zero_or_pos x with h0 | hpos
      · exact Or.inl h0
      · exact Or.inr ⟨x - 1, by omega, by omega⟩
  · simp only [Finset.mem_image, Finset.mem_range, initClh]
    rintro ⟨t, -, ht⟩
    omega
  · intro t u _ _ htu
    simp only [initClh, ne_eq, Nat.add_right_cancel_iff]
    exact htu
  · intro t ht; cases ht
  · intro t p hp; cases hp

theorem head?_append_of_head? {q : List Nat} {t u : Nat}
    (h : q.head? = some u) : (q ++ [t]).head? = some u := by
  cases q with
  | nil => cases h
  | cons a l => simpa using h

theorem clhInvQ_doLock {K : Nat} {s s' : ClhState} {hc : Nat}
    {q : List Nat} {t : Nat}
    (hinv : ClhInvQ K s hc q)
    (hstep : clhStep K s (ClhLabel.doLock t) = some s') :
    ClhInvQ K s' hc (q ++ [t]) := by
  simp only [clhStep] at hstep
  by_cases hg : t < K ∧ s.st t = TStatus.idle
  case neg => rw [if_neg hg] at hstep; cases hstep
  rw [if_pos hg] at hstep
  obtain ⟨htK, hidle⟩ := hg
  cases hstep
  have htq : t ∉ q := fun h => hinv.mem_active t h hidle
  have htc_mem : s.tcell t ∈ (Finset.range K).image s.tcell :=
    Finset.mem_image.mpr ⟨t, Finset.mem_range.mpr htK, rfl⟩
  have hhc_ne : hc ≠ s.tcell t := fun h => hinv.hc_not_owned (h ▸ htc_mem)
  refine ⟨?_, ?_, ?_, ?_, ?_, ?_, ?_, ?_, ?_, ?_, ?_⟩
  · exact List.Nodup.append hinv.nodup (List.nodup_singleton t)
      (fun a ha hb => by
        simp only [List.mem_singleton] at hb
        exact htq (hb ▸ ha))
  · intro u hu
    rcases List.mem_append.mp hu with h | h
    · exact hinv.mem_lt u h
    · simp only [List.mem_singleton] at h
      exact h ▸ htK
  · intro u hu
    show (if u = t then TStatus.waiting s.tail else s.st u) ≠ TStatus.idle
    by_cases hut : u = t
    · simp [hut]
    · rw [if_neg hut]
      exact hinv.mem_active u (by
        rcases List.mem_append.mp hu with h | h
        · exact h
        · simp only [List.mem_singleton] at h; exact absurd h hut)
  · intro u hu
    show u ∈ q ++ [t]
    by_cases hut : u = t
    · simp [hut]
    · simp only [if_neg hut] at hu
      exact List.mem_append.mpr (Or.inl (hinv.active_mem u hu))
  · refine chain_snoc (chain_congr ?_ ?_ hinv.chain_ok) ?_
    · intro u hu
      have hut : u ≠ t := fun h => htq (h ▸ hu)
      show predOf (if u = t then TStatus.waiting s.tail else s.st u) = _
      rw [if_neg hut]
    · intro u _; rfl
    · show predOf (if t = t then TStatus.waiting s.tail else s.st t) = some s.tail
      rw [if_pos rfl]
      rfl
  · exact hinv.cells_eq
  · exact hinv.hc_not_owned
  · exact hinv.tcell_inj
  · intro u hu
    show (if s.tcell u = s.tcell t then true else s.locked (s.tcell u)) = true
    by_cases hcc : s.tcell u = s.tcell t
    · rw [if_pos hcc]
    · rw [if_neg hcc]
      rcases List.mem_append.mp hu with h | h
      · exact hinv.locked_q u h
      · simp only [List.mem_singleton] at h
        exact absurd (h ▸ rfl) hcc
  · show (if hc = s.tcell t then true else s.locked hc) = false
    rw [if_neg hhc_ne]
    exact hinv.hc_unlocked
  · intro u p hp
    by_cases hut : u = t
    · subst hut
      simp only [if_pos rfl] at hp
      cases hp
    · simp only [if_neg hut] at hp
      exact head?_append_of_head? (hinv.holding_head u p hp)

theorem clhInvQ_doEnter {K : Nat} {s s' : ClhState} {hc : Nat}
    {q : List Nat} {t : Nat}
    (hinv : ClhInvQ K s hc q)
    (hstep : clhStep K s (ClhLabel.doEnter t) = some s') :
    ClhInvQ K s' hc q := by
  simp only [clhStep] at hstep
  cases hst : s.st t with
  | idle => rw [hst] at hstep; exact absurd hstep (by simp)
  | holding p => rw [hst] at hstep; exact absurd hstep (by simp)
  | waiting p => ?_
  rw [hst] at hstep
  simp only [] at hstep
  by_cases hl : s.locked p = false
  case neg =>
      rw [if_neg hl] at hstep
      exact absurd hstep (by simp)
  rw [if_pos hl] at hstep
  cases hstep
  have htq : t ∈ q := hinv.active_mem t (by rw [hst]; simp)
  have hhead : q.head? = some t := by
    rcases chain_pred_mem hinv.chain_ok htq with hh | ⟨u, hu, hp⟩
    · exact hh
    · exfalso
      rw [hst] at hp
      simp only [predOf, Option.some.injEq] at hp
      have hlq := hinv.locked_q u hu
      rw [← hp] at hlq
      rw [hlq] at hl
      exact Bool.noConfusion hl
  refine ⟨hinv.nodup, hinv.mem_lt, ?_, ?_, ?_, hinv.cells_eq,
    hinv.hc_not_owned, hinv.tcell_inj, hinv.locked_q,
    hinv.hc_unlocked, ?_⟩
  · intro u hu
    show (if u = t then TStatus.holding p else s.st u) ≠ TStatus.idle
    by_cases hut : u = t
    · simp [hut]
    · rw [if_neg hut]
      exact hinv.mem_active u hu
  · intro u hu
    by_cases hut : u = t
    · exact hut ▸ htq
    · simp only [if_neg hut] at hu
      exact hinv.active_mem u hu
  · refine chain_congr ?_ ?_ hinv.chain_ok
    · intro u hu
      show predOf (if u = t then TStatus.holding p else s.st u) = _
      by_cases hut : u = t
      · rw [if_pos hut, hut, hst]
        rfl
      · rw [if_neg hut]
    · intro u hu
      rfl
  · intro u p' hp'
    by_cases hut : u = t
    · exact hut ▸ hhead
    · simp only [if_neg hut] at hp'
      exact hinv.holding_head u p' hp'

theorem clhInvQ_doUnlock {K : Nat} {s s' : ClhState} {hc : Nat}
    {q : List Nat} {t : Nat}
    (hinv : ClhInvQ K s hc q)
    (hstep : clhStep K s (ClhLabel.doUnlock t) = some s') :
    ∃ rest, q = t :: rest ∧ ClhInvQ K s' (s.tcell t) rest := by
  simp only [clhStep] at hstep
  cases hst : s.st t with
  | idle => rw [hst] at hstep; exact absurd hstep (by simp)
  | waiting p => rw [hst] at hstep; exact absurd hstep (by simp)
  | holding p => ?_
  rw [hst] at hstep
  simp only [] at hstep
  cases hstep
  have hhead := hinv.holding_head t p hst
  obtain ⟨rest, hq⟩ : ∃ rest, q = t :: rest := by
    cases hqq : q with
    | nil => rw [hqq] at hhead; cases hhead
    | cons t1 r =>
        rw [hqq] at hhead
        simp only [List.head?_cons, Option.some.injEq] at hhead
        exact ⟨r, by rw [hhead]⟩
  subst hq
  have htK : t < K := hinv.mem_lt t (by simp)
  have htrest : t ∉ rest := (List.nodup_cons.mp hinv.nodup).1
  have hchain0 := hinv.chain_ok
  obtain ⟨hpred, hchain⟩ := hchain0
  have hphc : p = hc := by
    rw [hst] at hpred
    simpa [predOf] using hpred
  have htc_mem : s.tcell t ∈ (Finset.range K).image s.tcell :=
    Finset.mem_image.mpr ⟨t, Finset.mem_range.mpr htK, rfl⟩
  have hhc_ne : ∀ u, u < K → hc ≠ s.tcell u := by
    intro u hu h
    exact hinv.hc_not_owned
      (h ▸ Finset.mem_image.mpr ⟨u, Finset.mem_range.mpr hu, rfl⟩)
  refine ⟨rest, rfl, ?_, ?_, ?_, ?_, ?_, ?_, ?_, ?_, ?_, ?_, ?_⟩
  · exact (List.nodup_cons.mp hinv.nodup).2
  · intro u hu
    exact hinv.mem_lt u (by simp [hu])
  · intro u hu
    have hut : u ≠ t := fun h => htrest (h ▸ hu)
    show (if u = t then TStatus.idle else s.st u) ≠ TStatus.idle
    rw [if_neg hut]
    exact hinv.mem_active u (by simp [hu])
  · intro u hu
    by_cases hut : u = t
    · subst hut
      simp only [if_pos rfl] at hu
      exact absurd rfl hu
    · simp only [if_neg hut] at hu
      have := hinv.active_mem u hu
      rcases List.mem_cons.mp this with h | h
      · exact absurd h hut
      · exact h
  · refine chain_congr ?_ ?_ hchain
    · intro u hu
      have hut : u ≠ t := fun h => htrest (h ▸ hu)
      show predOf (if u = t then TStatus.idle else s.st u) = _
      rw [if_neg hut]
    · intro u hu
      have hut : u ≠ t := fun h => htrest (h ▸ hu)
      show (if u = t then p else s.tcell u) = s.tcell u
      rw [if_neg hut]
  · ext x
    have hold := hinv.cells_eq
    constructor
    · intro hx
      rcases Finset.mem_insert.mp hx with h | h
      · rw [← hold]
        exact Finset.mem_insert.mpr (Or.inr (h ▸ htc_mem))
      · rcases Finset.mem_image.mp h with ⟨u, hu, hT⟩
        have hT' : (if u = t then p else s.tcell u) = x := hT
        by_cases hut : u = t
        · rw [if_pos hut, hphc] at hT'
          rw [← hold, ← hT']
          exact Finset.mem_insert_self _ _
        · rw [if_neg hut] at hT'
          rw [← hold]
          exact Finset.mem_insert.mpr
            (Or.inr (Finset.mem_image.mpr ⟨u, hu, hT'⟩))
    · intro hx
      rw [← hold] at hx
      rcases Finset.mem_insert.mp hx with h | h
      · refine Finset.mem_insert.mpr (Or.inr ?_)
        refine Finset.mem_image.mpr ⟨t, Finset.mem_range.mpr htK, ?_⟩
        show (if t = t then p else s.tcell t) = x
        rw [if_pos rfl, hphc, h]
      · rcases Finset.mem_image.mp h with ⟨u, hu, hT⟩
        by_cases hut : u = t
        · rw [hut] at hT
          exact Finset.mem_insert.mpr (Or.inl hT.symm)
        · refine Finset.mem_insert.mpr (Or.inr ?_)
          refine Finset.mem_image.mpr ⟨u, hu, ?_⟩
          show (if u = t then p else s.tcell u) = x
          rw [if_neg hut]
          exact hT
  · intro hmem
    rcases Finset.mem_image.mp hmem with ⟨u, hu, hT⟩
    have hT' : (if u = t then p else s.tcell u) = s.tcell t := hT
    by_cases hut : u = t
    · rw [if_pos hut, hphc] at hT'
      exact hhc_ne t htK hT'
    · rw [if_neg hut] at hT'
      exact hinv.tcell_inj u t (Finset.mem_range.mp hu) htK hut hT'
  · intro u v huK hvK huv
    show (if u = t then p else s.tcell u) ≠ (if v = t then p else s.tcell v)
    by_cases hut : u = t
    · have hvt : v ≠ t := fun h => huv (hut.trans h.symm)
      rw [if_pos hut, if_neg hvt, hphc]
      exact hhc_ne v hvK
    · rw [if_neg hut]
      by_cases hvt : v = t
      · rw [if_pos hvt, hphc]
        exact fun h => hhc_ne u huK h.symm
      · rw [if_neg hvt]
        exact hinv.tcell_inj u v huK hvK huv
  · intro u hu
    have hut : u ≠ t := fun h => htrest (h ▸ hu)
    have huK : u < K := hinv.mem_lt u (by simp [hu])
    show (if (if u = t then p else s.tcell u) = s.tcell t then false
      else s.locked (if u = t then p else s.tcell u)) = true
    rw [if_neg hut, if_neg (hinv.tcell_inj u t huK htK hut)]
    exact hinv.locked_q u (by simp [hu])
  · show (if s.tcell t = s.tcell t then false else s.locked (s.tcell t)) = false
    rw [if_pos rfl]
  · intro u p' hp'
    by_cases hut : u = t
    · subst hut
      simp only [if_pos rfl] at hp'
      exact absurd hp' (by simp)
    · simp only [if_neg hut] at hp'
      have := hinv.holding_head u p' hp'
      simp only [List.head?_cons, Option.some.injEq] at this
      exact absurd this.symm hut

theorem chain_head {s : ClhState} {c e u : Nat} {q : List Nat}
    (h : chain s c q e) (hu : q.head? = some u) :
    predOf (s.st u) = some c := by
  cases q with
  | nil => cases hu
  | cons t1 rest =>
      simp only [List.head?_cons, Option.some.injEq] at hu
      subst hu
      exact h.1

theorem clhStep_inv {K : Nat} {s s' : ClhState} {l : ClhLabel}
    (hinv : ClhInv K s) (hstep : clhStep K s l = some s') : ClhInv K s' := by
  obtain ⟨hc, q, hq⟩ := hinv
  cases l with
  | doLock t => exact ⟨hc, q ++ [t], clhInvQ_doLock hq hstep⟩
  | doEnter t => exact ⟨hc, q, clhInvQ_doEnter hq hstep⟩
  | doUnlock t =>
      obtain ⟨rest, -, h⟩ := clhInvQ_doUnlock hq hstep
      exact ⟨s.tcell t, rest, h⟩

theorem clhRun_inv {K : Nat} {labels : List ClhLabel} {s s' : ClhState}
    (hinv : ClhInv K s) (hrun : clhRun K s labels = some s') :
    ClhInv K s' := by
  induction labels generalizing s with
  | nil =>
      simp only [clhRun, Option.some.injEq] at hrun
      exact hrun ▸ hinv
  | cons l ls ih =>
      simp only [clhRun, Option.bind_eq_bind] at hrun
      rcases Option.bind_eq_some.mp hrun with ⟨s1, hstep, hrest⟩
      exact ih (clhStep_inv hinv hstep) hrest

theorem clhInvQ_claimCellSet {K : Nat} {s : ClhState} {hc : Nat}
    {q : List Nat} (hinv : ClhInvQ K s hc q) :
    claimCellSet K s = Finset.range (K + 1) := by
  have hhc_mem : hc ∈ Finset.range (K + 1) := by
    rw [← hinv.cells_eq]
    exact Finset.mem_insert_self _ _
  ext x
  simp only [claimCellSet, Finset.mem_union, Finset.mem_image,
    Finset.mem_biUnion, Finset.mem_singleton, Option.mem_toFinset,
    Option.mem_def]
  constructor
  · rintro ((⟨u, hu, hT⟩ | ⟨u, hu, hp⟩) | hx)
    · rw [← hinv.cells_eq]
      exact Finset.mem_insert.mpr (Or.inr (Finset.mem_image.mpr ⟨u, hu, hT⟩))
    · have hune : s.st u ≠ TStatus.idle := by
        intro h
        rw [h] at hp
        cases hp
      have huq : u ∈ q := hinv.active_mem u hune
      rcases chain_pred_mem hinv.chain_ok huq with hh | ⟨w, hw, hpw⟩
      · have := chain_head hinv.chain_ok hh
        rw [this] at hp
        simp only [Option.some.injEq] at hp
        exact hp ▸ hhc_mem
      · rw [hpw] at hp
        simp only [Option.some.injEq] at hp
        rw [← hinv.cells_eq]
        refine Finset.mem_insert.mpr (Or.inr ?_)
        exact Finset.mem_image.mpr
          ⟨w, Finset.mem_range.mpr (hinv.mem_lt w hw), hp⟩
    · rcases chain_last hinv.chain_ok with h | ⟨u, hu, he⟩
      · exact hx ▸ h ▸ hhc_mem
      · rw [← hinv.cells_eq]
        refine Finset.mem_insert.mpr (Or.inr ?_)
        exact Finset.mem_image.mpr
          ⟨u, Finset.mem_range.mpr (hinv.mem_lt u hu), (hx ▸ he).symm⟩
  · intro hx
    rw [← hinv.cells_eq] at hx
    rcases Finset.mem_insert.mp hx with h | h
    · cases hq : q with
      | nil =>
          have hch := hinv.chain_ok
          rw [hq] at hch
          exact Or.inr (h.trans hch)
      | cons t1 rest =>
          have hch := hinv.chain_ok
          rw [hq] at hch
          refine Or.inl (Or.inr ⟨t1, ?_, ?_⟩)
          · exact Finset.mem_range.mpr (hinv.mem_lt t1 (by rw [hq]; simp))
          · rw [hch.1, h]
    · rcases Finset.mem_image.mp h with ⟨u, hu, hT⟩
      exact Or.inl (Or.inl ⟨u, hu, hT⟩)

end Clh

/-- C8 (counterexample to the claim as stated): with one thread and a
single `doLock` step, the thread's current cell pointer and `tail_`
both denote the thread's cell, so the claim's collection taken as a
multiset has that cell twice and is not equal to {sentinel, initial
cell}. -/
theorem C8_clh_multiset_counterexample :
    ∃ s, Clh.clhRun 1 Clh.initClh [Clh.ClhLabel.doLock 0] = some s ∧
      Clh.claimCells 1 s ≠ Clh.initCells 1 := by
  refine ⟨_, rfl, ?_⟩
  decide

/-- C8 (amended): in every state reachable by lock, enter and unlock
steps obeying the handle discipline, the SET of cells formed by every
thread's current cell pointer, the outstanding handles' `pred` cells,
and the cells reachable from `tail_` equals the initial sentinel
together with the participating threads' initially allocated cells —
no cell is ever freed or lost — and no two threads' current cell
pointers coincide. -/
theorem C8_clh_cell_conservation_amended
    (K : Nat) (labels : List Clh.ClhLabel) (s : Clh.ClhState)
    (hrun : Clh.clhRun K Clh.initClh labels = some s) :
    Clh.claimCellSet K s = Finset.range (K + 1) ∧
    Clh.claimCellSet K s = Clh.claimCellSet K Clh.initClh ∧
    (∀ t u, t < K → u < K → t ≠ u → s.tcell t ≠ s.tcell u) := by
  obtain ⟨hc, q, hq⟩ := Clh.clhRun_inv (Clh.clhInv_init K) hrun
  obtain ⟨hc0, q0, hq0⟩ := Clh.clhInv_init K
  have h1 := Clh.clhInvQ_claimCellSet hq
  exact ⟨h1, h1.trans (Clh.clhInvQ_claimCellSet hq0).symm, hq.tcell_inj⟩

/-- Witness for C8's amended theorem: a concrete two-thread contended
run (thread 0 locks and enters, thread 1 queues, thread 0 unlocks,
thread 1 enters). -/
theorem C8_clh_cell_conservation_witness :
    ∃ s, Clh.clhRun 2 Clh.initClh
        [Clh.ClhLabel.doLock 0, Clh.ClhLabel.doEnter 0,
         Clh.ClhLabel.doLock 1, Clh.ClhLabel.doUnlock 0,
         Clh.ClhLabel.doEnter 1] = some s ∧
      Clh.claimCellSet 2 s = Finset.range 3 := by
  obtain ⟨s, hs⟩ : ∃ s, Clh.clhRun 2 Clh.initClh
      [Clh.ClhLabel.doLock 0, Clh.ClhLabel.doEnter 0,
       Clh.ClhLabel.doLock 1, Clh.ClhLabel.doUnlock 0,
       Clh.ClhLabel.doEnter 1] = some s := ⟨_, rfl⟩
  exact ⟨s, hs, (C8_clh_cell_conservation_amended 2 _ s hs).1⟩

end MutexBench

namespace MutexBench

end MutexBench

namespace MutexBench

/-! C1.  The spec claims every string in {mutex, reciprocating, hapax,
mcs, twa, clh} is accepted by `TryParseLockKind` and dispatched by
`DispatchByLockKind`.  The code rejects "clh" (the enum has no such
enumerator even though the benchmark usage text and error message list
it), and the dispatch switch has no `kTwa` case, so `--lock-kind twa`
reaches `std::abort()`. -/

/-- C1: evaluation of the parser and dispatcher at the failing inputs.
`TryParseLockKind` rejects "clh" and `DispatchByLockKind` aborts
(returns no bench) on `kTwa`, while the four remaining kinds parse and
dispatch; this contradicts the claim that all six lock-kind strings are
accepted and dispatched. -/
theorem C1_lock_kind_dispatch_eval :
    tryParseLockKind "clh" = none ∧
    tryParseLockKind "twa" = some LockKind.kTwa ∧
    dispatchByLockKind LockKind.kTwa = none ∧
    tryParseLockKind "mutex" = some LockKind.kMutex ∧
    tryParseLockKind "reciprocating" = some LockKind.kReciprocating ∧
    tryParseLockKind "hapax" = some LockKind.kHapax ∧
    tryParseLockKind "mcs" = some LockKind.kMcs ∧
    dispatchByLockKind LockKind.kMutex = some LockBenchType.StdMutexLockBench ∧
    dispatchByLockKind LockKind.kReciprocating
      = some LockBenchType.ReciprocatingLockBench ∧
    dispatchByLockKind LockKind.kHapax = some LockBenchType.HapaxLockBench ∧
    dispatchByLockKind LockKind.kMcs = some LockBenchType.McsLockBench := by
  refine ⟨rfl, rfl, rfl, rfl, rfl, rfl, rfl, rfl, rfl, rfl, rfl⟩

end MutexBench

namespace MutexBench

/-! ## Hapax visible-waiter lock

Embedding of `src/locks/hapax.hpp`.  Tokens and counters are 64-bit;
pointers and array indices are `Nat`.  `NextHapax` keeps a
`static thread_local` private counter per thread and one process-wide
allocator; `ToSlot` addresses a function-local `static` 4096-slot array
shared by every `HapaxVW` instance, while the 256-slot member array
`Waiting` is declared (hapax.hpp line 22) but referenced nowhere.
-/

namespace Hapax

/-- State of the token allocator (hapax.hpp lines 50-51): each thread's
`PrivateHapax` and the process-wide `HapaxAllocator`. -/
structure HTokenState where
  priv : Nat → Nat
  alloc : Nat

/-- Fresh process: every private counter and the allocator are zero. -/
def initTok : HTokenState := { priv := fun _ => 0, alloc := 0 }

/-- Embedding of `HapaxVW::NextHapax` (hapax.hpp lines 49-72) executed
by thread `tid`: post-increment the private counter; when the value
has a zero low 16-bit part (`(hapax & 0xFFFF) == 0`, i.e. divisible by
`2^16`), fetch-add the allocator, add 1, shift left 16 bits, and reseed
the private counter with the token plus one.  All 64-bit arithmetic
wraps modulo `2^64`. -/
def nextHapax (s : HTokenState) (tid : Nat) : Nat × HTokenState :=
  let hapax := s.priv tid
  if hapax % 65536 = 0 then
    let h1 := (s.alloc + 1) % U64
    let h2 := h1 * 65536 % U64
    (h2, { priv := fun u => if u = tid then (h2 + 1) % U64 else s.priv u,
           alloc := (s.alloc + 1) % U64 })
  else
    (hapax,
     { s with priv := fun u => if u = tid then (hapax + 1) % U64 else s.priv u })

/-- Run `NextHapax` for the listed thread ids in order, collecting the
(thread, token) pairs. -/
def runHapax (s : HTokenState) : List Nat → List (Nat × Nat) × HTokenState
  | [] => ([], s)
  | t :: ts =>
      let r := nextHapax s t
      let rest := runHapax r.2 ts
      ((t, r.1) :: rest.1, rest.2)

/-- The 48-bit zone of a token: its upper 48 bits. -/
def zone (h : Nat) : Nat := h / 65536

/-- The zone a thread is currently allocating from (meaningful when its
private counter is nonzero). -/
def czone (s : HTokenState) (t : Nat) : Nat := (s.priv t - 1) / 65536

/-- Ordering relation between two issued (thread, token) pairs: tokens
of one thread grow strictly; tokens of distinct threads lie in distinct
zones. -/
def TokRel (a b : Nat × Nat) : Prop :=
  (a.1 = b.1 → a.2 < b.2) ∧ (a.1 ≠ b.1 → zone a.2 ≠ zone b.2)

/-- Inductive invariant of the token allocator relating the issued
history to the allocator state (valid while the allocator has not
wrapped). -/
structure HapaxInv (hist : List (Nat × Nat)) (s : HTokenState) : Prop where
  priv_le : ∀ t, s.priv t ≤ (s.alloc + 1) * 65536
  priv_big : ∀ t, s.priv t = 0 ∨ 65536 < s.priv t
  czone_bounds : ∀ t, s.priv t ≠ 0 → 1 ≤ czone s t ∧ czone s t ≤ s.alloc
  czone_inj : ∀ t u, t ≠ u → s.priv t ≠ 0 → s.priv u ≠ 0 →
    czone s t ≠ czone s u
  hist_ok : ∀ p ∈ hist, p.2 ≠ 0 ∧ 1 ≤ zone p.2 ∧ zone p.2 ≤ s.alloc ∧
    s.priv p.1 ≠ 0 ∧ p.2 < s.priv p.1
  hist_zone : ∀ p ∈ hist, ∀ t, t ≠ p.1 → s.priv t ≠ 0 → zone p.2 ≠ czone s t
  pairwise : List.Pairwise TokRel hist

theorem hapaxInv_init : HapaxInv [] initTok := by
  refine ⟨?_, ?_, ?_, ?_, ?_, ?_, List.Pairwise.nil⟩
  · intro t; simp [initTok]
  · intro t; exact Or.inl rfl
  · intro t ht; exact absurd rfl ht
  · intro t u _ ht; exact absurd rfl ht
  · intro p hp; cases hp
  · intro p hp; cases hp

theorem hapaxStep_inv {hist : List (Nat × Nat)} {s : HTokenState} (tid : Nat)
    (hinv : HapaxInv hist s) (halloc : s.alloc + 1 < 2 ^ 48) :
    HapaxInv (hist ++ [(tid, (nextHapax s tid).1)]) (nextHapax s tid).2 := by
  have h48 : (2:Nat) ^ 48 = 281474976710656 := by norm_num
  have hU : U64 = 18446744073709551616 := by norm_num [U64]
  have hallocU : s.alloc + 1 < U64 := by omega
  have hzU : (s.alloc + 1) * 65536 < U64 := by omega
  by_cases hb : s.priv tid % 65536 = 0
  · -- Boundary: reprovision a fresh zone.
    have e1 : (s.alloc + 1) % U64 = s.alloc + 1 := Nat.mod_eq_of_lt hallocU
    have e2 : (s.alloc + 1) * 65536 % U64 = (s.alloc + 1) * 65536 :=
      Nat.mod_eq_of_lt hzU
    have e3 : ((s.alloc + 1) * 65536 + 1) % U64 = (s.alloc + 1) * 65536 + 1 :=
      Nat.mod_eq_of_lt (by omega)
    have htok : (nextHapax s tid).1 = (s.alloc + 1) * 65536 := by
      simp only [nextHapax, if_pos hb, e1, e2]
    have hpriv : ∀ u, (nextHapax s tid).2.priv u
        = if u = tid then (s.alloc + 1) * 65536 + 1 else s.priv u := by
      intro u
      simp only [nextHapax, if_pos hb, e1, e2, e3]
    have halloc2 : (nextHapax s tid).2.alloc = s.alloc + 1 := by
      simp only [nextHapax, if_pos hb, e1]
    rw [htok]
    refine ⟨?_, ?_, ?_, ?_, ?_, ?_, ?_⟩
    · intro t
      rw [hpriv t, halloc2]
      by_cases ht : t = tid
      · rw [if_pos ht]; omega
      · rw [if_neg ht]
        have := hinv.priv_le t
        omega
    · intro t
      rw [hpriv t]
      by_cases ht : t = tid
      · rw [if_pos ht]; omega
      · rw [if_neg ht]
        exact hinv.priv_big t
    · intro t ht
      rw [hpriv t] at ht
      simp only [czone, hpriv t, halloc2]
      by_cases h2 : t = tid
      · rw [if_pos h2]
        omega
      · rw [if_neg h2] at ht ⊢
        have := hinv.czone_bounds t ht
        simp only [czone] at this
        omega
    · intro t u htu ht hu
      rw [hpriv t] at ht
      rw [hpriv u] at hu
      simp only [czone, hpriv t, hpriv u, halloc2]
      by_cases h2 : t = tid
      · have h3 : u ≠ tid := fun h => htu (h2.trans h.symm)
        rw [if_pos h2]
        rw [if_neg h3] at hu ⊢
        have := hinv.czone_bounds u hu
        simp only [czone] at this
        omega
      · rw [if_neg h2] at ht ⊢
        by_cases h3 : u = tid
        · rw [if_pos h3]
          have := hinv.czone_bounds t ht
          simp only [czone] at this
          omega
        · rw [if_neg h3] at hu ⊢
          have := hinv.czone_inj t u htu ht hu
          simp only [czone] at this
          exact this
    · intro p hp
      rcases List.mem_append.mp hp with hold | hnew
      · obtain ⟨h1, h2, h3, h4, h5⟩ := hinv.hist_ok p hold
        rw [hpriv p.1, halloc2]
        refine ⟨h1, h2, by omega, ?_, ?_⟩
        · by_cases hpt : p.1 = tid
          · rw [if_pos hpt]; omega
          · rw [if_neg hpt]; exact h4
        · by_cases hpt : p.1 = tid
          · rw [if_pos hpt]
            have := hinv.priv_le p.1
            rw [hpt] at this h5
            omega
          · rw [if_neg hpt]; exact h5
      · simp only [List.mem_singleton] at hnew
        subst hnew
        rw [hpriv tid, halloc2, if_pos rfl]
        simp only [zone]
        omega
    · intro p hp t htp ht
      rw [hpriv t] at ht
      rcases List.mem_append.mp hp with hold | hnew
      · simp only [czone, hpriv t]
        by_cases h2 : t = tid
        · obtain ⟨-, -, h3, -, -⟩ := hinv.hist_ok p hold
          rw [if_pos h2]
          simp only [zone] at h3 ⊢
          omega
        · rw [if_neg h2] at ht ⊢
          have := hinv.hist_zone p hold t htp ht
          simp only [czone] at this
          exact this
      · simp only [List.mem_singleton] at hnew
        subst hnew
        simp only at htp ht ⊢
        have h2 : t ≠ tid := htp
        rw [if_neg h2] at ht
        simp only [czone, hpriv t, if_neg h2, zone]
        have := hinv.czone_bounds t ht
        simp only [czone] at this
        omega
    · refine List.pairwise_append.mpr
        ⟨hinv.pairwise, List.pairwise_singleton _ _, ?_⟩
      intro a ha b hb2
      simp only [List.mem_singleton] at hb2
      subst hb2
      obtain ⟨-, -, h3, h4, h5⟩ := hinv.hist_ok a ha
      constructor
      · intro hsame
        simp only at hsame ⊢
        have := hinv.priv_le a.1
        rw [hsame] at this h5
        omega
      · intro hdiff
        simp only at hdiff ⊢
        simp only [zone] at h3 ⊢
        omega
  · -- Not a boundary: continue in the current zone.
    have hne : s.priv tid ≠ 0 := fun h => hb (by rw [h])
    have hbig : 65536 < s.priv tid := (hinv.priv_big tid).resolve_left hne
    have hlt : s.priv tid < (s.alloc + 1) * 65536 := by
      have := hinv.priv_le tid
      omega
    have e4 : (s.priv tid + 1) % U64 = s.priv tid + 1 :=
      Nat.mod_eq_of_lt (by omega)
    have htok : (nextHapax s tid).1 = s.priv tid := by
      simp only [nextHapax, if_neg hb]
    have hpriv : ∀ u, (nextHapax s tid).2.priv u
        = if u = tid then s.priv tid + 1 else s.priv u := by
      intro u
      simp only [nextHapax, if_neg hb, e4]
    have halloc2 : (nextHapax s tid).2.alloc = s.alloc := by
      simp only [nextHapax, if_neg hb]
    have hcb := hinv.czone_bounds tid hne
    rw [htok]
    refine ⟨?_, ?_, ?_, ?_, ?_, ?_, ?_⟩
    · intro t
      rw [hpriv t, halloc2]
      by_cases ht : t = tid
      · rw [if_pos ht]; omega
      · rw [if_neg ht]
        exact hinv.priv_le t
    · intro t
      rw [hpriv t]
      by_cases ht : t = tid
      · rw [if_pos ht]; omega
      · rw [if_neg ht]
        exact hinv.priv_big t
    · intro t ht
      rw [hpriv t] at ht
      simp only [czone, hpriv t, halloc2]
      by_cases h2 : t = tid
      · rw [if_pos h2]
        simp only [czone] at hcb
        omega
      · rw [if_neg h2] at ht ⊢
        have := hinv.czone_bounds t ht
        simp only [czone] at this
        exact this
    · intro t u htu ht hu
      rw [hpriv t] at ht
      rw [hpriv u] at hu
      simp only [czone, hpriv t, hpriv u]
      have hpt : s.priv t ≠ 0 := by
        by_cases h2 : t = tid
        · exact h2 ▸ hne
        · rw [if_neg h2] at ht; exact ht
      have hpu : s.priv u ≠ 0 := by
        by_cases h2 : u = tid
        · exact h2 ▸ hne
        · rw [if_neg h2] at hu; exact hu
      have := hinv.czone_inj t u htu hpt hpu
      simp only [czone] at this
      by_cases h2 : t = tid
      · have h3 : u ≠ tid := fun h => htu (h2.trans h.symm)
        rw [if_pos h2, if_neg h3]
        rw [h2] at this
        omega
      · rw [if_neg h2]
        by_cases h3 : u = tid
        · rw [if_pos h3]
          rw [h3] at this
          omega
        · rw [if_neg h3]
          exact this
    · intro p hp
      rcases List.mem_append.mp hp with hold | hnew
      · obtain ⟨h1, h2, h3, h4, h5⟩ := hinv.hist_ok p hold
        rw [hpriv p.1, halloc2]
        refine ⟨h1, h2, h3, ?_, ?_⟩
        · by_cases hpt : p.1 = tid
          · rw [if_pos hpt]; omega
          · rw [if_neg hpt]; exact h4
        · by_cases hpt : p.1 = tid
          · rw [if_pos hpt]
            rw [hpt] at h5
            omega
          · rw [if_neg hpt]; exact h5
      · simp only [List.mem_singleton] at hnew
        subst hnew
        rw [hpriv tid, halloc2, if_pos rfl]
        simp only [zone]
        simp only [czone] at hcb
        omega
    · intro p hp t htp ht
      rw [hpriv t] at ht
      have hpt : s.priv t ≠ 0 := by
        by_cases h2 : t = tid
        · exact h2 ▸ hne
        · rw [if_neg h2] at ht; exact ht
      rcases List.mem_append.mp hp with hold | hnew
      · simp only [czone, hpriv t]
        have := hinv.hist_zone p hold t htp hpt
        simp only [czone] at this
        by_cases h2 : t = tid
        · rw [if_pos h2]
          rw [h2] at this
          omega
        · rw [if_neg h2]
          exact this
      · simp only [List.mem_singleton] at hnew
        subst hnew
        simp only at htp ht ⊢
        have h2 : t ≠ tid := htp
        simp only [czone, hpriv t, if_neg h2, zone]
        have := hinv.czone_inj tid t (fun h => htp h.symm) hne hpt
        simp only [czone] at this
        omega
    · refine List.pairwise_append.mpr
        ⟨hinv.pairwise, List.pairwise_singleton _ _, ?_⟩
      intro a ha b hb2
      simp only [List.mem_singleton] at hb2
      subst hb2
      obtain ⟨-, -, -, -, h5⟩ := hinv.hist_ok a ha
      constructor
      · intro hsame
        simp only at hsame ⊢
        rw [hsame] at h5
        exact h5
      · intro hdiff
        simp only at hdiff ⊢
        have := hinv.hist_zone a ha tid (fun h => hdiff h.symm) hne
        simp only [zone, czone] at this ⊢
        omega

theorem nextHapax_alloc_le (s : HTokenState) (t : Nat) :
    (nextHapax s t).2.alloc ≤ s.alloc + 1 := by
  simp only [nextHapax]
  by_cases hb : s.priv t % 65536 = 0
  · rw [if_pos hb]
    exact Nat.mod_le _ _
  · rw [if_neg hb]
    exact Nat.le_succ _

theorem hapaxRun_inv {hist : List (Nat × Nat)} {s : HTokenState}
    (tr : List Nat) (hinv : HapaxInv hist s)
    (hbound : s.alloc + tr.length < 2 ^ 48) :
    HapaxInv (hist ++ (runHapax s tr).1) (runHapax s tr).2 := by
  induction tr generalizing hist s with
  | nil => simpa [runHapax] using hinv
  | cons t ts ih =>
      simp only [runHapax]
      simp only [List.length_cons] at hbound
      have h1 := hapaxStep_inv t hinv (by omega)
      have h2 := ih h1 (by
        have := nextHapax_alloc_le s t
        omega)
      simpa [List.append_assoc] using h2

theorem tokRel_ne {a b : Nat × Nat} (h : TokRel a b) : a.2 ≠ b.2 := by
  by_cases hs : a.1 = b.1
  · exact Nat.ne_of_lt (h.1 hs)
  · intro he
    exact (h.2 hs) (by rw [he])

theorem pairwise_tokens_nodup {hist : List (Nat × Nat)}
    (h : List.Pairwise TokRel hist) :
    (hist.map (fun p => p.2)).Nodup := by
  have h3 : hist.Pairwise (fun a b => a.2 ≠ b.2) :=
    h.imp (fun hr => tokRel_ne hr)
  exact List.pairwise_map.mpr h3

theorem pairwise_thread_mono {hist : List (Nat × Nat)}
    (h : List.Pairwise TokRel hist) (tid : Nat) :
    ((hist.filter (fun p => p.1 == tid)).map (fun p => p.2)).Pairwise
      (fun a b => a < b) := by
  have h1 : (hist.filter (fun p => p.1 == tid)).Pairwise TokRel := h.filter _
  have h2 : (hist.filter (fun p => p.1 == tid)).Pairwise
      (fun a b => a.2 < b.2) := by
    refine List.Pairwise.imp_of_mem ?_ h1
    intro a b ha hb hr
    have ha2 := (List.mem_filter.mp ha).2
    have hb2 := (List.mem_filter.mp hb).2
    simp only [beq_iff_eq] at ha2 hb2
    exact hr.1 (ha2.trans hb2.symm)
  exact List.pairwise_map.mpr h2

theorem runHapax_append (s : HTokenState) (xs ys : List Nat) :
    runHapax s (xs ++ ys)
      = ((runHapax s xs).1 ++ (runHapax (runHapax s xs).2 ys).1,
         (runHapax (runHapax s xs).2 ys).2) := by
  induction xs generalizing s with
  | nil => simp [runHapax]
  | cons t ts ih =>
      simp only [List.cons_append, runHapax, List.append_eq]
      rw [ih]

/-- Closed form for a single thread acquiring from a fresh process: the
k-th token (1-based) is `65536 + (k - 1)`, i.e. the tokens are
consecutive starting at zone 1. -/
theorem runHapax_single (k : Nat) (hk : k ≤ 70000) :
    (runHapax initTok (List.replicate k 0)).1
      = (List.range k).map (fun i => (0, 65536 + i)) ∧
    (runHapax initTok (List.replicate k 0)).2.priv 0
      = (if k = 0 then 0 else 65536 + k) ∧
    (runHapax initTok (List.replicate k 0)).2.alloc
      = (if k = 0 then 0 else 1 + (k - 1) / 65536) := by
  induction k with
  | zero => simp [runHapax, initTok]
  | succ n ih =>
      obtain ⟨ih1, ih2, ih3⟩ := ih (by omega)
      have hU : U64 = 18446744073709551616 := by norm_num [U64]
      rw [List.replicate_succ', runHapax_append, ih1]
      by_cases hn0 : n = 0
      · subst hn0
        exact ⟨by decide, by decide, by decide⟩
      · rw [if_neg hn0] at ih2
        rw [if_neg hn0] at ih3
        have hstep : nextHapax (runHapax initTok (List.replicate n 0)).2 0
            = (65536 + n,
               { priv := fun u => if u = 0 then 65536 + n + 1
                   else (runHapax initTok (List.replicate n 0)).2.priv u,
                 alloc := if n % 65536 = 0 then 1 + (n - 1) / 65536 + 1
                   else 1 + (n - 1) / 65536 }) := by
          by_cases hmod : n % 65536 = 0
          · have hn65536 : n = 65536 := by omega
            simp only [nextHapax, ih2, ih3]
            subst hn65536
            norm_num [U64]
          · have hb : (65536 + n) % 65536 ≠ 0 := by omega
            simp only [nextHapax, ih2, ih3, if_neg hb, if_neg hmod]
            have : (65536 + n + 1) % U64 = 65536 + n + 1 := by
              apply Nat.mod_eq_of_lt
              omega
            rw [this]
        refine ⟨?_, ?_, ?_⟩
        · simp only [runHapax, hstep, List.range_succ, List.map_append,
            List.map_cons, List.map_nil]
        · simp only [runHapax, hstep]
          have hne2 : n + 1 ≠ 0 := by omega
          rw [if_neg hne2]
          simp [Nat.add_assoc]
        · simp only [runHapax, hstep]
          have : n + 1 ≠ 0 := by omega
          rw [if_neg this]
          by_cases hmod : n % 65536 = 0
          · rw [if_pos hmod]
            omega
          · rw [if_neg hmod]
            omega

/-- Closed form for a run in which `k` distinct threads each acquire
once: the i-th caller reprovisions and receives token
`(i + 1) * 2^16 mod 2^64`. -/
theorem runHapax_range (k : Nat) (hk : k ≤ 2 ^ 48) :
    (runHapax initTok (List.range k)).1
      = (List.range k).map (fun i => (i, (i + 1) * 65536 % U64)) ∧
    (runHapax initTok (List.range k)).2.alloc = k ∧
    ∀ t, (runHapax initTok (List.range k)).2.priv t
      = if t < k then ((t + 1) * 65536 % U64 + 1) % U64 else 0 := by
  have h48 : (2:Nat) ^ 48 = 281474976710656 := by norm_num
  have hU : U64 = 18446744073709551616 := by norm_num [U64]
  induction k with
  | zero =>
      refine ⟨by simp [runHapax], by simp [runHapax, initTok], ?_⟩
      intro t
      simp [runHapax, initTok]
  | succ n ih =>
      obtain ⟨ih1, ih2, ih3⟩ := ih (by omega)
      rw [List.range_succ, runHapax_append, ih1]
      have hpn : (runHapax initTok (List.range n)).2.priv n = 0 := by
        rw [ih3 n]
        simp
      have hstep : nextHapax (runHapax initTok (List.range n)).2 n
          = ((n + 1) * 65536 % U64,
             { priv := fun u => if u = n then ((n + 1) * 65536 % U64 + 1) % U64
                 else (runHapax initTok (List.range n)).2.priv u,
               alloc := n + 1 }) := by
        have hb : (runHapax initTok (List.range n)).2.priv n % 65536 = 0 := by
          rw [hpn]
        simp only [nextHapax, if_pos hb, ih2]
        have e1 : (n + 1) % U64 = n + 1 := Nat.mod_eq_of_lt (by omega)
        rw [e1]
      refine ⟨?_, ?_, ?_⟩
      · simp only [runHapax, hstep, List.map_append, List.map_cons,
          List.map_nil]
      · simp only [runHapax, hstep]
      · intro t
        simp only [runHapax, hstep]
        by_cases ht : t = n
        · rw [if_pos ht, ht, if_pos (by omega)]
        · rw [if_neg ht, ih3 t]
          by_cases htn : t < n
          · rw [if_pos htn, if_pos (by omega)]
          · rw [if_neg htn, if_neg (by omega)]

end Hapax

/-! C3.  `NextHapax` does all 64-bit arithmetic modulo `2^64`, so once
the process-wide allocator has handed out `2^48 - 1` zones, the next
reprovision computes `(2^48 << 16) mod 2^64 = 0` and returns token 0
(the code's own `assert(hapax != 0)` would fire).  The claim therefore
holds only while fewer than `2^48` acquires (hence fewer than `2^48`
zone allocations) have happened — which covers every feasible process,
but not the unconditional statement. -/

/-- C3 (counterexample to the claim as stated): in the run where
`2^48` distinct threads each call `NextHapax` once, every call
reprovisions a zone and the last call returns token
`(2^48 * 2^16) mod 2^64 = 0`, contradicting "every token returned by
NextHapax is nonzero". -/
theorem C3_hapax_token_counterexample :
    ((2 : Nat) ^ 48 - 1, 0) ∈
      (Hapax.runHapax Hapax.initTok (List.range (2 ^ 48))).1 := by
  have h := (Hapax.runHapax_range (2 ^ 48) (le_refl _)).1
  rw [h]
  refine List.mem_map.mpr ⟨2 ^ 48 - 1, List.mem_range.mpr (by norm_num), ?_⟩
  have h0 : (2 ^ 48 - 1 + 1) * 65536 % U64 = 0 := by norm_num [U64]
  rw [h0]

/-- C3 (amended): in any run of fewer than `2^48` calls to `NextHapax`
(so the 48-bit zone allocator cannot wrap), every returned token is
nonzero, the tokens returned to any single thread strictly increase,
and no token value is returned twice across all threads; moreover, for
a single thread issuing 70,000 consecutive acquires from a fresh
process the observed values are exactly `65536, 65537, ...`, strictly
increasing, and they cross a 16-bit zone boundary. -/
theorem C3_hapax_tokens_amended :
    (∀ tr : List Nat, tr.length < 2 ^ 48 →
      (∀ p ∈ (Hapax.runHapax Hapax.initTok tr).1, p.2 ≠ 0) ∧
      (∀ tid, (((Hapax.runHapax Hapax.initTok tr).1.filter
          (fun p => p.1 == tid)).map (fun p => p.2)).Pairwise
            (fun a b => a < b)) ∧
      ((Hapax.runHapax Hapax.initTok tr).1.map (fun p => p.2)).Nodup) ∧
    (Hapax.runHapax Hapax.initTok (List.replicate 70000 0)).1
      = (List.range 70000).map (fun i => (0, 65536 + i)) ∧
    ((Hapax.runHapax Hapax.initTok (List.replicate 70000 0)).1.map
        (fun p => p.2)).Pairwise (fun a b => a < b) ∧
    (∃ p ∈ (Hapax.runHapax Hapax.initTok (List.replicate 70000 0)).1,
     ∃ q ∈ (Hapax.runHapax Hapax.initTok (List.replicate 70000 0)).1,
       Hapax.zone p.2 < Hapax.zone q.2) := by
  have h70 := (Hapax.runHapax_single 70000 (le_refl _)).1
  refine ⟨?_, h70, ?_, ?_⟩
  · intro tr htr
    have hinv := Hapax.hapaxRun_inv tr Hapax.hapaxInv_init
      (by simpa [Hapax.initTok] using htr)
    simp only [List.nil_append] at hinv
    refine ⟨?_, ?_, ?_⟩
    · intro p hp
      exact (hinv.hist_ok p hp).1
    · intro tid
      exact Hapax.pairwise_thread_mono hinv.pairwise tid
    · exact Hapax.pairwise_tokens_nodup hinv.pairwise
  · rw [h70, List.map_map]
    refine List.pairwise_map.mpr ?_
    exact (List.pairwise_lt_range _).imp (fun h => by
      simp only [Function.comp]
      omega)
  · refine ⟨(0, 65536 + 0), ?_, (0, 65536 + 69999), ?_, ?_⟩
    · rw [h70]
      exact List.mem_map.mpr ⟨0, List.mem_range.mpr (by norm_num), rfl⟩
    · rw [h70]
      exact List.mem_map.mpr ⟨69999, List.mem_range.mpr (by norm_num), rfl⟩
    · norm_num [Hapax.zone]

/-- Witness for C3's amended theorem at a concrete three-call trace
(two calls by thread 0, one by thread 1). -/
theorem C3_hapax_tokens_witness :
    (∀ p ∈ (Hapax.runHapax Hapax.initTok [0, 0, 1]).1, p.2 ≠ 0) ∧
    ((Hapax.runHapax Hapax.initTok [0, 0, 1]).1.map (fun p => p.2)).Nodup := by
  have h := C3_hapax_tokens_amended.1 [0, 0, 1] (by norm_num)
  exact ⟨h.1, h.2.2⟩

end MutexBench
